import Mathlib

/-!
# Verification of the word-puzzler dictionary and segmentation engine

Shallow embedding of the program's three source files:

* `src/probability.rs` — negative-log probability values (`Prob`), stored in a
  64-bit float; the bit-level encoding is modelled exactly by `F64`, and the
  real-valued arithmetic on stored values is idealized over `ℚ` (every finite
  64-bit float is a rational, and the only idealization is that float
  arithmetic is treated as exact).
* `src/dictionary.rs` — `Dictionary::build`, `Dictionary::find_matches`.  The
  external `fst`/`regex_automata` engines are a provided capability per the
  specification; they are modelled by an association list of
  `(key, 64-bit value)` pairs and by an explicit pattern language of literal
  characters, the `.` single-character wildcard and the `*` repetition
  operator, which is the fragment language the program uses.  A pattern
  outside this language is modelled as a compile failure.
* `src/main.rs` — `search_cmd`, the candidate dedup loop of `permute_cmd`, and
  the recursive backtracking `break_into_words`.  The `&mut Vec` stack and the
  `?` error propagation of `break_into_words` are modelled by explicit state
  passing (`BiwRes` carries the final stack, the recorded segmentations and an
  optional error); recursion is embedded with an explicit fuel parameter so
  that every definition is executable.
-/

set_option autoImplicit false

/-! ## ASCII helpers (`to_ascii_lowercase`, `trim_end_matches`) -/

/-- Model of Rust `char::to_ascii_lowercase`: maps `A`..`Z` to `a`..`z` and
leaves every other character unchanged. -/
def asciiLowerChar (c : Char) : Char :=
  if 'A' ≤ c && c ≤ 'Z' then Char.ofNat (c.toNat + 32) else c

/-- Model of Rust `str::to_ascii_lowercase`. -/
def asciiLower (s : String) : String :=
  ⟨s.data.map asciiLowerChar⟩

/-- Model of `trim_end_matches(|c| c == '\r' || c == '\n')` used on the lines
of the vocabulary file in `Dictionary::build`. -/
def trimEndCRLF (s : String) : String :=
  ⟨(s.data.reverse.dropWhile (fun c => c = '\r' || c = '\n')).reverse⟩

/-! ## The pattern language (modelled automaton capability)

`Dictionary::find_matches` lowercases the pattern, compiles it with
`regex_automata::dense::Builder::new().anchored(true)` and streams every map
key fully accepted by the automaton.  The engine itself is outside the core
(specification §1), so it is modelled for the pattern language the program
uses: literal characters, the `.` single-character wildcard, and `*`
repetition of the previous atom.  Compilation fails (as the real engine does
on malformed patterns, e.g. a leading `*`) outside this language. -/

/-- One atom of a compiled pattern: a literal character or the wildcard. -/
inductive PatItem where
  | dot : PatItem
  | lit : Char → PatItem
deriving DecidableEq

/-- A compiled pattern: atoms, each optionally under a `*` repetition. -/
abbrev Pattern := List (PatItem × Bool)

/-- Characters accepted as pattern atoms: lowercase letters, digits, the
wildcard dot.  (Uppercase letters are gone after lowercasing.) -/
def supportedChar (c : Char) : Bool :=
  ('a' ≤ c && c ≤ 'z') || ('0' ≤ c && c ≤ '9') || c = '.'

/-- Atom denoted by a supported character. -/
def mkItem (c : Char) : PatItem :=
  if c = '.' then .dot else .lit c

/-- Pattern compiler: `c*` compiles to a starred atom, a `*` with no
preceding atom (or any unsupported character) is a compile error, as in the
real regex engine. -/
def compileGo : List Char → Option Pattern
  | [] => some []
  | [c] => if supportedChar c then some [(mkItem c, false)] else none
  | c :: r :: rest2 =>
    if supportedChar c then
      if r = '*' then (compileGo rest2).map ((mkItem c, true) :: ·)
      else (compileGo (r :: rest2)).map ((mkItem c, false) :: ·)
    else none

/-- Does an atom accept a character? -/
def itemMatches : PatItem → Char → Bool
  | .dot, _ => true
  | .lit c, d => c = d

/-- Fuel-indexed anchored matcher: does the pattern accept the whole string?
Fuel `|pattern| + |string| + 1` always suffices. -/
def matchGo : Nat → Pattern → List Char → Bool
  | 0, _, _ => false
  | _ + 1, [], cs => cs.isEmpty
  | fuel + 1, (a, false) :: ps, cs =>
    match cs with
    | [] => false
    | c :: cs => itemMatches a c && matchGo fuel ps cs
  | fuel + 1, (a, true) :: ps, cs =>
    matchGo fuel ps cs ||
      match cs with
      | [] => false
      | c :: cs => itemMatches a c && matchGo fuel ((a, true) :: ps) cs

/-- Anchored (whole-string) matcher for a compiled pattern. -/
def matchRun (p : Pattern) (cs : List Char) : Bool :=
  matchGo (p.length + cs.length + 1) p cs

/-- Specification-side semantics of a compiled pattern: the anchored
(full-string) matching relation. -/
inductive PatMatch : Pattern → List Char → Prop where
  | nil : PatMatch [] []
  | item {a ps c cs} : itemMatches a c = true → PatMatch ps cs →
      PatMatch ((a, false) :: ps) (c :: cs)
  | starSkip {a ps cs} : PatMatch ps cs → PatMatch ((a, true) :: ps) cs
  | starCons {a ps c cs} : itemMatches a c = true → PatMatch ((a, true) :: ps) cs →
      PatMatch ((a, true) :: ps) (c :: cs)

/-! ## IEEE-754 binary64 bit patterns

`probability.rs` stores a `Prob` in an `fst::Map` value slot through
`f64::to_bits`/`f64::from_bits`, which transmute between a float and the
64-bit pattern `sign ∘ 11 exponent bits ∘ 52 fraction bits`.  `F64` models a
float value by exactly those fields, so `toBits`/`fromBits` are the exact
packing and unpacking functions. -/

/-- A 64-bit IEEE-754 bit pattern: sign, 11 exponent bits, 52 fraction bits.
Every `f64` (including NaNs) corresponds to exactly one `F64`. -/
structure F64 where
  sign : Bool
  expo : Fin 2048
  frac : Fin 4503599627370496
deriving DecidableEq

/-- Model of `f64::to_bits` (and hence of `Prob::to_bits`). -/
def F64.toBits (x : F64) : Nat :=
  (if x.sign then 1 else 0) * 2 ^ 63 + x.expo.val * 2 ^ 52 + x.frac.val

/-- Model of `f64::from_bits` (and hence of `Prob::from_bits`); the argument
is a `u64`, modelled as a natural number reduced mod `2^64`. -/
def F64.fromBits (n : Nat) : F64 :=
  ⟨n / 2 ^ 63 % 2 = 1,
   ⟨n / 2 ^ 52 % 2 ^ 11, Nat.mod_lt _ (by norm_num)⟩,
   ⟨n % 2 ^ 52, Nat.mod_lt _ (by norm_num)⟩⟩

/-- Exact rational value of a finite `F64` bit pattern (IEEE-754 decoding);
infinities and NaNs (exponent field 2047) are outside the program's value
space and are mapped to 0. -/
def F64.toRatD (x : F64) : ℚ :=
  let mag : ℚ :=
    if x.expo.val = 0 then (x.frac.val : ℚ) * 2 / 2 ^ 1075
    else if x.expo.val = 2047 then 0
    else ((2 ^ 52 + x.frac.val : ℕ) : ℚ) * 2 ^ x.expo.val / 2 ^ 1075
  if x.sign then -mag else mag

/-! ## Dictionary build (`src/dictionary.rs`, `Dictionary::build`)

The counts file is a list of lines, each matching
`^([^ \t]+)[ \t]+([0-9]+)\r?\n?$`; the vocabulary file is a list of lines,
one word per line.  `u64` arithmetic is modelled as `Nat` with explicit
`2^64` overflow checks.  The stored probability of each vocabulary word is
the `f64` quotient `effective_count / total_count`, idealized as an exact
rational.  The `fst::MapBuilder` output is modelled as the list of inserted
`(key, value)` pairs in insertion order. -/

/-- Space or tab, as in the count-line regular expression. -/
def isWS (c : Char) : Bool := c = ' ' || c = '\t'

/-- ASCII digit. -/
def isDigitCh (c : Char) : Bool := '0' ≤ c && c ≤ '9'

/-- Numeric value of a digit string (`str::parse` before its `u64` range
check, which `loadCountsGo` performs separately). -/
def natOfDigits (s : String) : Nat :=
  s.data.foldl (fun n c => 10 * n + (c.toNat - 48)) 0

/-- Model of matching one counts line against
`^([^ \t]+)[ \t]+([0-9]+)\r?\n?$`: returns the word capture and the digit
capture, or `none` when the line does not match. -/
def parseCountLine (line : String) : Option (String × String) :=
  let cs := line.data
  let word := cs.takeWhile (fun c => !isWS c)
  let rest := cs.dropWhile (fun c => !isWS c)
  let ws := rest.takeWhile isWS
  let tail := rest.dropWhile isWS
  let digits := tail.takeWhile isDigitCh
  let after := tail.dropWhile isDigitCh
  if word.isEmpty || ws.isEmpty || digits.isEmpty then none
  else if after = [] || after = ['\r'] || after = ['\n'] || after = ['\r', '\n'] then
    some (⟨word⟩, ⟨digits⟩)
  else none

/-- Errors of `Dictionary::build` (each `anyhow` error is tagged with the
offending datum). -/
inductive BuildError where
  | formatError (line : String)
  | countParseError (digits : String)
  | duplicateWord (line : String)
  | countOverflow
deriving DecidableEq

/-- First-match association-list lookup (the `HashMap` of `build` and the
word lookup of the emission loop). -/
def lookupW {α : Type} : List (String × α) → String → Option α
  | [], _ => none
  | (k, v) :: rest, w => if k = w then some v else lookupW rest w

/-- The count-loading loop of `Dictionary::build`: per line, match the
count regular expression, lowercase the word, parse the count, reject
duplicate words, add to the total with a `u64` overflow check, and track the
smallest count.  State: `(word ↦ count) list, total_count, smallest_count`. -/
def loadCountsGo (counts : List (String × Nat)) (total smallest : Nat) :
    List String → Except BuildError (List (String × Nat) × Nat × Nat)
  | [] => .ok (counts, total, smallest)
  | line :: rest =>
    match parseCountLine line with
    | none => .error (.formatError line)
    | some (w, digits) =>
      let word := asciiLower w
      let count := natOfDigits digits
      if 2 ^ 64 ≤ count then .error (.countParseError digits)
      else if (lookupW counts word).isSome then .error (.duplicateWord line)
      else if 2 ^ 64 ≤ total + count then .error .countOverflow
      else loadCountsGo (counts ++ [(word, count)]) (total + count) (min count smallest) rest

/-- Result of loading a counts file. -/
structure CountsInfo where
  counts : List (String × Nat)
  total : Nat
  smallest : Nat
deriving DecidableEq

/-- Load the counts file: the loop above started from the empty map, total
`0` and smallest `u64::MAX`, with the final `smallest_count == u64::MAX → 1`
fallback from the source. -/
def loadCounts (lines : List String) : Except BuildError CountsInfo :=
  (loadCountsGo [] 0 (2 ^ 64 - 1) lines).map fun st =>
    ⟨st.1, st.2.1, if st.2.2 = 2 ^ 64 - 1 then 1 else st.2.2⟩

/-- The emission loop of `Dictionary::build`: for each vocabulary line,
trim trailing CR/LF, lowercase, and insert the word with stored value
`effective_count as f64 / total_count as f64` (idealized as the exact
rational; `to_bits` of that float is what lands in the map slot). -/
def buildWords (info : CountsInfo) (lines : List String) : List (String × ℚ) :=
  lines.map fun l =>
    let w := asciiLower (trimEndCRLF l)
    (w, (((lookupW info.counts w).getD info.smallest : ℚ) / (info.total : ℚ)))

namespace Dictionary

/-- Model of `Dictionary::build in_words_path in_count_path out_dict_path`, as the
function from the counts-file lines and the vocabulary-file lines to the
emitted `(key, stored value)` sequence (or a build error). -/
def build (countLines wordLines : List String) :
    Except BuildError (List (String × ℚ)) :=
  (loadCounts countLines).map fun info => buildWords info wordLines

end Dictionary

/-! ## Dictionary queries (`Dictionary::find_matches`) -/

/-- The only query error representable in the model: the pattern fails to
compile.  (The other real error source, a matched key that is not valid
UTF-8, cannot arise here because keys are modelled as Lean strings, which
are always valid text.) -/
inductive RegexError where
  | badPattern
deriving DecidableEq

/-- A loaded dictionary: the sorted `fst::Map` as an association list of
keys and 64-bit value slots. -/
abbrev Dict := List (String × Nat)

namespace Dictionary

/-- Model of `Dictionary::find_matches`: lowercase the pattern, compile it (anchored
at both ends), stream every accepted key with `f64::from_bits` of its value
slot. -/
def find_matches (d : Dict) (regex : String) :
    Except RegexError (List (String × F64)) :=
  match compileGo (asciiLower regex).data with
  | none => .error .badPattern
  | some dfa =>
    .ok ((d.filter fun kv => matchRun dfa kv.1.data).map
      fun kv => (kv.1, F64.fromBits kv.2))

end Dictionary

/-- Model of `search_cmd` (`src/main.rs`): load the dictionary, run `find_matches`,
print the result.  The printed sequence is exactly the returned list, in
order. -/
def search_cmd (d : Dict) (regex : String) :
    Except RegexError (List (String × F64)) :=
  Dictionary.find_matches d regex

/-! ## Segmentation engine (`src/main.rs`)

`break_into_words` consumes the probabilities decoded by `find_matches` and
combines them with `Prob::mul` (addition of stored values) starting from
`Prob::always()` (stored value `0.0`).  The stored-value arithmetic is
idealized over `ℚ`, so here a loaded dictionary carries its decoded stored
values directly. -/

/-- A loaded dictionary with decoded stored values (exact rationals). -/
abbrev DictQ := List (String × ℚ)

/-- Model of `find_matches` against a value-decoded dictionary: same lowercasing,
compilation and anchored filtering as `Dictionary.find_matches`. -/
def findMatchesQ (d : DictQ) (regex : String) :
    Except RegexError (List (String × ℚ)) :=
  match compileGo (asciiLower regex).data with
  | none => .error .badPattern
  | some dfa => .ok (d.filter fun kv => matchRun dfa kv.1.data)

/-- The base case of `break_into_words` folds the chosen stack in order:
`prob` starts at `Prob::always()` (stored `0.0`) and each entry is combined
by `Prob::mul`, i.e. stored values are added. -/
def combineSoFar (soFar : List (ℚ × String)) : ℚ :=
  soFar.foldl (fun acc pw => acc + pw.1) 0

/-- The base case of `break_into_words` joins the chosen words in order,
separating them with a single space. -/
def joinWords (soFar : List (ℚ × String)) : String :=
  soFar.foldl (fun w pw => (if 0 < w.length then w.push ' ' else w) ++ pw.2) ""

/-- The `(prob, words)` pair pushed onto `matches` in the base case. -/
def mkEntry (soFar : List (ℚ × String)) : ℚ × String :=
  (combineSoFar soFar, joinWords soFar)

/-- Errors observable from a `break_into_words` call: a propagated
`find_matches` pattern error, or exhaustion of the embedding's fuel. -/
inductive BiwErr where
  | patternFailed
  | outOfFuel
deriving DecidableEq

/-- State of `break_into_words` after a call returns: the `so_far` stack as
the callee left it, the `matches` accumulator, and the propagated error if
the call returned `Err`. -/
structure BiwRes where
  soFar : List (ℚ × String)
  found : List (ℚ × String)
  err : Option BiwErr
deriving DecidableEq

/-- The three positions of the `break_into_words` control flow: the function
entry, the length loop `for i in (1..=remaining.len()).rev()`, and the inner
loop over one pattern's matches. -/
inductive BiwCall where
  | main (soFar : List (ℚ × String)) (remaining : List Char)
      (found : List (ℚ × String))
  | iLoop (soFar : List (ℚ × String)) (remaining : List Char)
      (found : List (ℚ × String)) (is : List Nat)
  | wLoop (soFar : List (ℚ × String)) (remaining : List Char)
      (found : List (ℚ × String)) (i : Nat) (ms : List (String × ℚ))

/-- The `so_far` stack at a control position. -/
def BiwCall.soFarOf : BiwCall → List (ℚ × String)
  | .main soFar _ _ => soFar
  | .iLoop soFar _ _ _ => soFar
  | .wLoop soFar _ _ _ _ => soFar

/-- The `matches` accumulator at a control position. -/
def BiwCall.foundOf : BiwCall → List (ℚ × String)
  | .main _ _ found => found
  | .iLoop _ _ found _ => found
  | .wLoop _ _ found _ _ => found

/-- The unconsumed suffix at a control position. -/
def BiwCall.remainingOf : BiwCall → List Char
  | .main _ remaining _ => remaining
  | .iLoop _ remaining _ _ => remaining
  | .wLoop _ remaining _ _ _ => remaining

/-- The substring lengths tried by the length loop: `n, n-1, ..., 1`. -/
def revIdx (n : Nat) : List Nat :=
  (List.range n).reverse.map (· + 1)

/-- One step of `break_into_words`, fuel-indexed so that the recursion is
structural.  `main`: if the suffix is empty, record `mkEntry so_far`;
otherwise run the length loop.  `iLoop`: take the prefix of length `i` as
the pattern, call `find_matches` (propagating its error), run the match loop,
then continue with the next length.  `wLoop`: push `(p, w)`, recurse on the
suffix after the prefix, and pop — except that a propagated error returns
immediately, before the pop, exactly as `?` does in the source. -/
def biwRun (d : DictQ) : Nat → BiwCall → BiwRes
  | 0, c => ⟨c.soFarOf, c.foundOf, some .outOfFuel⟩
  | fuel + 1, .main soFar remaining found =>
    if remaining.isEmpty then ⟨soFar, found ++ [mkEntry soFar], none⟩
    else biwRun d fuel (.iLoop soFar remaining found (revIdx remaining.length))
  | _ + 1, .iLoop soFar _ found [] => ⟨soFar, found, none⟩
  | fuel + 1, .iLoop soFar remaining found (i :: is) =>
    match findMatchesQ d ⟨remaining.take i⟩ with
    | .error _ => ⟨soFar, found, some .patternFailed⟩
    | .ok ms =>
      let r := biwRun d fuel (.wLoop soFar remaining found i ms)
      if r.err.isSome then r
      else biwRun d fuel (.iLoop r.soFar remaining r.found is)
  | _ + 1, .wLoop soFar _ found _ [] => ⟨soFar, found, none⟩
  | fuel + 1, .wLoop soFar remaining found i ((w, p) :: ms) =>
    let r := biwRun d fuel (.main (soFar ++ [(p, w)]) (remaining.drop i) found)
    if r.err.isSome then r
    else biwRun d fuel (.wLoop r.soFar.dropLast remaining r.found i ms)

/-- Model of `break_into_words dict so_far remaining_pattern matches`, with an
explicit fuel bounding the number of embedded steps.  A run that returns
with `err = none` is a complete, faithful execution of the source
function. -/
def break_into_words (d : DictQ) (fuel : Nat) (soFar : List (ℚ × String))
    (remaining : String) (found : List (ℚ × String)) : BiwRes :=
  biwRun d fuel (.main soFar remaining.data found)

/-! ## Candidate enumeration of `permute_cmd` (`src/main.rs`) -/

/-- The concatenations of all fragment permutations (`itertools` permutes
positions, so duplicate fragments yield duplicate candidates here; the
enumeration order of the iterator is not semantically relevant and the
model uses the structural enumeration `List.permutations'`). -/
def candidateStrings (frags : List String) : List String :=
  frags.permutations'.map fun p => String.join p

/-- The `seen_candidates` filter of `permute_cmd`: process a candidate only
if it has not been seen, then insert it into the seen set. -/
def permuteDedupGo (seen : List String) : List String → List String
  | [] => []
  | c :: cs =>
    if c ∈ seen then permuteDedupGo seen cs
    else c :: permuteDedupGo (c :: seen) cs

/-- The candidate strings on which `permute_cmd` actually runs
`break_into_words`, in processing order. -/
def processedCandidates (frags : List String) : List String :=
  permuteDedupGo [] (candidateStrings frags)

/-! ## Specification-side predicates used by the theorems -/

/-- Strict lexicographic (byte) order on character lists: the key order of
the `fst` map for ASCII keys. -/
def lexLt : List Char → List Char → Bool
  | [], [] => false
  | [], _ :: _ => true
  | _ :: _, [] => false
  | a :: as, b :: bs => a < b || (a = b && lexLt as bs)

/-- Key order on strings. -/
def keyLt (a b : String) : Bool := lexLt a.data b.data

/-- The words of one chosen stack extension, as one flat character list. -/
def wordsChars (ext : List (ℚ × String)) : List Char :=
  ext.foldr (fun pw r => pw.2.data ++ r) []

/-- A stack extension `ext` is a sound segmentation of `remaining`: every
chosen `(prob, word)` pair is a dictionary entry, and the concatenation of
the chosen words is accepted by the compiled (lowercased) pattern
`remaining`. -/
def ExtSound (d : DictQ) (remaining : List Char) (ext : List (ℚ × String)) : Prop :=
  (∀ pw ∈ ext, (pw.2, pw.1) ∈ d) ∧
  ∃ pat, compileGo (remaining.map asciiLowerChar) = some pat ∧
    matchRun pat (wordsChars ext) = true

/-- Invariant holding at a `break_into_words` control position: at `wLoop`,
the pending matches all come from `find_matches` on the prefix of length
`i`. -/
def SoundCall (d : DictQ) : BiwCall → Prop
  | .wLoop _ remaining _ i ms =>
    ∃ pat, compileGo ((remaining.take i).map asciiLowerChar) = some pat ∧
      ∀ wp ∈ ms, wp ∈ d ∧ matchRun pat wp.1.data = true
  | _ => True

/-- A segmentation entry newly recorded below a control position: the entry
is `mkEntry` of the entry stack extended by a sound segmentation of the
remaining suffix. -/
def SoundNew (d : DictQ) (c : BiwCall) (e : ℚ × String) : Prop :=
  ∃ ext, ExtSound d c.remainingOf ext ∧ e = mkEntry (c.soFarOf ++ ext)

/-- The lowercased word captures of a well-formed counts file, in order. -/
def countWords (lines : List String) : List String :=
  lines.filterMap fun l => (parseCountLine l).map fun wd => asciiLower wd.1

/-- The total of the count captures of a well-formed counts file. -/
def countSum (lines : List String) : Nat :=
  (lines.filterMap fun l => (parseCountLine l).map fun wd => natOfDigits wd.2).sum

/-! ## Matcher correctness -/

/-- The fuel-indexed matcher decides `PatMatch` once the fuel exceeds the
combined length of pattern and string. -/
theorem matchGo_eq_iff : ∀ {fuel : Nat} {p : Pattern} {cs : List Char},
    p.length + cs.length < fuel → (matchGo fuel p cs = true ↔ PatMatch p cs) := by
  intro fuel
  induction fuel with
  | zero => intro p cs h; omega
  | succ fuel ih =>
    intro p cs h
    match p, cs with
    | [], [] =>
      simpa [matchGo] using PatMatch.nil
    | [], c :: cs =>
      simp only [matchGo, List.isEmpty_cons]
      constructor
      · intro hcontra; cases hcontra
      · intro hm; cases hm
    | (a, false) :: ps, [] =>
      simp only [matchGo]
      constructor
      · intro hcontra; cases hcontra
      · intro hm; cases hm
    | (a, false) :: ps, c :: cs =>
      simp only [matchGo, Bool.and_eq_true]
      have hlen : ps.length + cs.length < fuel := by
        simp [List.length_cons] at h; omega
      constructor
      · rintro ⟨hi, hrec⟩
        exact PatMatch.item hi ((ih hlen).mp hrec)
      · intro hm
        cases hm with
        | item hi hrec => exact ⟨hi, (ih hlen).mpr hrec⟩
    | (a, true) :: ps, [] =>
      simp only [matchGo, Bool.or_eq_true]
      have hlen : ps.length + List.length ([] : List Char) < fuel := by
        simp [List.length_cons] at h ⊢; omega
      constructor
      · rintro (hrec | hcontra)
        · exact PatMatch.starSkip ((ih hlen).mp hrec)
        · cases hcontra
      · intro hm
        cases hm with
        | starSkip hrec => exact Or.inl ((ih hlen).mpr hrec)
    | (a, true) :: ps, c :: cs =>
      simp only [matchGo, Bool.or_eq_true, Bool.and_eq_true]
      have hlen₁ : ps.length + (c :: cs).length < fuel := by
        simp [List.length_cons] at h ⊢; omega
      have hlen₂ : ((a, true) :: ps).length + cs.length < fuel := by
        simp [List.length_cons] at h ⊢; omega
      constructor
      · rintro (hrec | ⟨hi, hrec⟩)
        · exact PatMatch.starSkip ((ih hlen₁).mp hrec)
        · exact PatMatch.starCons hi ((ih hlen₂).mp hrec)
      · intro hm
        cases hm with
        | starSkip hrec => exact Or.inl ((ih hlen₁).mpr hrec)
        | starCons hi hrec => exact Or.inr ⟨hi, (ih hlen₂).mpr hrec⟩

/-- The matcher used by `find_matches` decides the anchored matching
relation. -/
theorem matchRun_iff {p : Pattern} {cs : List Char} :
    matchRun p cs = true ↔ PatMatch p cs :=
  matchGo_eq_iff (by omega)

/-- Anchored matches concatenate. -/
theorem PatMatch.append : ∀ {p₁ : Pattern} {s₁ : List Char} {p₂ : Pattern} {s₂ : List Char},
    PatMatch p₁ s₁ → PatMatch p₂ s₂ → PatMatch (p₁ ++ p₂) (s₁ ++ s₂) := by
  intro p₁ s₁ p₂ s₂ h₁ h₂
  induction h₁ with
  | nil => simpa using h₂
  | item hi _ ihrec => exact PatMatch.item hi ihrec
  | starSkip _ ihrec => exact PatMatch.starSkip ihrec
  | starCons hi _ ihrec => exact PatMatch.starCons hi ihrec

/-- A successfully compiled pattern never starts with a bare `*`. -/
theorem compileGo_ne_star {s : List Char} {p : Pattern} (h : compileGo s = some p) :
    ∀ rest, s = '*' :: rest → False := by
  rintro rest rfl
  have hs : supportedChar '*' = false := rfl
  match rest with
  | [] => simp [compileGo, hs] at h
  | r :: rest2 => simp [compileGo, hs] at h

/-- Compilation is a homomorphism for concatenation of compilable
patterns. -/
theorem compileGo_append : ∀ {s₁ : List Char} {p₁ : Pattern} {s₂ : List Char} {p₂ : Pattern},
    compileGo s₁ = some p₁ → compileGo s₂ = some p₂ →
    compileGo (s₁ ++ s₂) = some (p₁ ++ p₂) := by
  intro s₁
  induction s₁ using compileGo.induct with
  | case1 =>
    intro p₁ s₂ p₂ h₁ h₂
    simp only [compileGo, Option.some.injEq] at h₁
    subst h₁
    simpa using h₂
  | case2 c hc =>
    -- s₁ = [c], c supported
    intro p₁ s₂ p₂ h₁ h₂
    simp only [compileGo, hc, if_true, Option.some.injEq] at h₁
    subst h₁
    match s₂, h₂ with
    | [], h₂ =>
      simp only [compileGo, Option.some.injEq] at h₂
      subst h₂
      simp [compileGo, hc]
    | d :: ds, h₂ =>
      have hd : ¬ d = '*' := fun hd => compileGo_ne_star h₂ ds (by rw [hd])
      simp only [List.singleton_append, compileGo, hc, if_true, hd, if_false, h₂,
        Option.map_some']
  | case3 c hc =>
    intro p₁ s₂ p₂ h₁ h₂
    simp [compileGo, hc] at h₁
  | case4 c rest2 hc ih =>
    -- s₁ = c :: '*' :: rest2
    intro p₁ s₂ p₂ h₁ h₂
    simp only [compileGo, hc, if_true, if_pos rfl, Option.map_eq_some'] at h₁
    obtain ⟨q, hq, rfl⟩ := h₁
    have := ih hq h₂
    simp only [List.cons_append, compileGo, hc, if_true, if_pos rfl]
    rw [show rest2 ++ s₂ = rest2.append s₂ from rfl] at this
    rw [this]
    rfl
  | case5 c r rest2 hc hr ih =>
    -- s₁ = c :: r :: rest2, r not '*'
    intro p₁ s₂ p₂ h₁ h₂
    simp only [compileGo, hc, if_true, hr, if_false, Option.map_eq_some'] at h₁
    obtain ⟨q, hq, rfl⟩ := h₁
    have := ih hq h₂
    simp only [List.cons_append, compileGo, hc, if_true, hr, if_false]
    simp only [List.append_eq] at this ⊢
    rw [show (r :: rest2) ++ s₂ = r :: (rest2 ++ s₂) from rfl] at this
    rw [this]
    rfl
  | case6 c r rest2 hc =>
    intro p₁ s₂ p₂ h₁ h₂
    simp [compileGo, hc] at h₁

/-! ## Frame property of the backtracking search -/

/-- On an error-free return, every control position of `break_into_words`
leaves the `so_far` stack exactly as it found it. -/
theorem biwRun_soFar_preserved (d : DictQ) : ∀ (fuel : Nat) (c : BiwCall),
    (biwRun d fuel c).err = none → (biwRun d fuel c).soFar = c.soFarOf := by
  intro fuel
  induction fuel with
  | zero => intro c h; simp [biwRun] at h
  | succ fuel ih =>
    intro c h
    match c with
    | .main soFar remaining found =>
      by_cases hrem : remaining.isEmpty
      · simp [biwRun, hrem, BiwCall.soFarOf]
      · simp only [biwRun, hrem, if_false] at h ⊢
        exact ih _ h
    | .iLoop soFar remaining found [] =>
      simp [biwRun, BiwCall.soFarOf]
    | .iLoop soFar remaining found (i :: is) =>
      simp only [biwRun] at h ⊢
      cases hfm : findMatchesQ d ⟨remaining.take i⟩ with
      | error e => simp [hfm] at h
      | ok ms =>
        simp only [hfm] at h ⊢
        by_cases herr : (biwRun d fuel (.wLoop soFar remaining found i ms)).err.isSome
        · simp only [herr, if_true] at h
          rw [h] at herr
          simp at herr
        · simp only [herr, Bool.false_eq_true, if_false] at h ⊢
          have hw : (biwRun d fuel (.wLoop soFar remaining found i ms)).err = none := by
            simpa using herr
          have h1 := ih _ hw
          have h2 := ih _ h
          rw [h2, h1]
          simp [BiwCall.soFarOf]
    | .wLoop soFar remaining found i [] =>
      simp [biwRun, BiwCall.soFarOf]
    | .wLoop soFar remaining found i ((w, p) :: ms) =>
      simp only [biwRun] at h ⊢
      by_cases herr : (biwRun d fuel (.main (soFar ++ [(p, w)]) (remaining.drop i) found)).err.isSome
      · simp only [herr, if_true] at h
        rw [h] at herr
        simp at herr
      · simp only [herr, Bool.false_eq_true, if_false] at h ⊢
        have hm : (biwRun d fuel (.main (soFar ++ [(p, w)]) (remaining.drop i) found)).err = none := by
          simpa using herr
        have h1 := ih _ hm
        have h2 := ih _ h
        rw [h2]
        simp only [BiwCall.soFarOf] at h1 ⊢
        rw [h1, List.dropLast_concat]

/-! ## Soundness of recorded segmentations -/

/-- Unfolding lemma: a successful `find_matches` call means the lowercased
pattern compiled and the result is the filter of the dictionary by the
anchored matcher. -/
theorem findMatchesQ_ok {d : DictQ} {s : String} {ms : List (String × ℚ)}
    (h : findMatchesQ d s = .ok ms) :
    ∃ pat, compileGo (asciiLower s).data = some pat ∧
      ms = d.filter fun kv => matchRun pat kv.1.data := by
  unfold findMatchesQ at h
  cases hc : compileGo (asciiLower s).data with
  | none => rw [hc] at h; cases h
  | some pat =>
    rw [hc] at h
    cases h
    exact ⟨pat, rfl, rfl⟩

/-- The flat word list of a cons extension. -/
theorem wordsChars_cons (pw : ℚ × String) (ext : List (ℚ × String)) :
    wordsChars (pw :: ext) = pw.2.data ++ wordsChars ext := rfl

/-- Positions of kind `main` carry no pending-match obligations. -/
theorem soundCall_main (d : DictQ) (soFar : List (ℚ × String)) (remaining : List Char)
    (found : List (ℚ × String)) : SoundCall d (.main soFar remaining found) := trivial

/-- Positions of kind `iLoop` carry no pending-match obligations. -/
theorem soundCall_iLoop (d : DictQ) (soFar : List (ℚ × String)) (remaining : List Char)
    (found : List (ℚ × String)) (is : List Nat) :
    SoundCall d (.iLoop soFar remaining found is) := trivial

/-- Every entry in the `matches` accumulator after a `break_into_words` step
was either already there, or is `mkEntry` of the entry stack extended by a
sound segmentation of the remaining suffix. -/
theorem biwRun_found_sound (d : DictQ) : ∀ (fuel : Nat) (c : BiwCall),
    SoundCall d c → ∀ e ∈ (biwRun d fuel c).found,
      e ∈ c.foundOf ∨ SoundNew d c e := by
  intro fuel
  induction fuel with
  | zero => intro c _ e he; exact Or.inl he
  | succ fuel ih =>
    intro c hcall e he
    match c with
    | .main soFar remaining found =>
      by_cases hrem : remaining.isEmpty
      · rw [List.isEmpty_iff] at hrem
        subst hrem
        simp only [biwRun, List.isEmpty_nil, if_true] at he
        rcases List.mem_append.mp he with hin | hnew
        · exact Or.inl hin
        · right
          refine ⟨[], ⟨by simp, [], rfl, rfl⟩, ?_⟩
          simp only [List.mem_singleton] at hnew
          simpa [BiwCall.soFarOf] using hnew
      · simp only [biwRun, hrem, if_false] at he
        rcases ih _ (soundCall_iLoop d soFar remaining found (revIdx remaining.length)) e he
          with hin | hnew
        · exact Or.inl hin
        · right
          obtain ⟨ext, hext, he'⟩ := hnew
          exact ⟨ext, hext, he'⟩
    | .iLoop soFar remaining found [] =>
      simp only [biwRun] at he
      exact Or.inl he
    | .iLoop soFar remaining found (i :: is) =>
      simp only [biwRun] at he
      cases hfm : findMatchesQ d ⟨remaining.take i⟩ with
      | error err =>
        rw [hfm] at he
        exact Or.inl he
      | ok ms =>
        rw [hfm] at he
        obtain ⟨pat, hpat, hms⟩ := findMatchesQ_ok hfm
        have hpat' : compileGo ((remaining.take i).map asciiLowerChar) = some pat := hpat
        have hwcall : SoundCall d (.wLoop soFar remaining found i ms) := by
          refine ⟨pat, hpat', ?_⟩
          intro wp hwp
          rw [hms] at hwp
          exact List.mem_filter.mp hwp
        by_cases herr : (biwRun d fuel (.wLoop soFar remaining found i ms)).err.isSome
        · simp only [herr, if_true] at he
          rcases ih _ hwcall e he with hin | hnew
          · exact Or.inl hin
          · exact Or.inr hnew
        · simp only [herr, Bool.false_eq_true, if_false] at he
          have hwerr : (biwRun d fuel (.wLoop soFar remaining found i ms)).err = none := by
            simpa using herr
          have hpres := biwRun_soFar_preserved d fuel _ hwerr
          rcases ih _ (soundCall_iLoop d _ remaining _ is) e he with hin | hnew
          · rcases ih _ hwcall e hin with hin2 | hnew2
            · exact Or.inl hin2
            · exact Or.inr hnew2
          · right
            obtain ⟨ext, hext, he'⟩ := hnew
            refine ⟨ext, hext, ?_⟩
            rw [he']
            simp only [BiwCall.soFarOf] at hpres ⊢
            rw [hpres]
    | .wLoop soFar remaining found i [] =>
      simp only [biwRun] at he
      exact Or.inl he
    | .wLoop soFar remaining found i ((w, p) :: ms) =>
      simp only [biwRun] at he
      obtain ⟨pat, hpat, hms⟩ := hcall
      have hmainSound : ∀ x, SoundNew d (.main (soFar ++ [(p, w)]) (remaining.drop i) found) x →
          SoundNew d (.wLoop soFar remaining found i ((w, p) :: ms)) x := by
        rintro x ⟨ext, ⟨hdict, pat₂, hpat₂, hmatch⟩, hx⟩
        simp only [BiwCall.remainingOf, BiwCall.soFarOf] at hpat₂ hx
        refine ⟨(p, w) :: ext, ⟨?_, pat ++ pat₂, ?_, ?_⟩, ?_⟩
        · intro pw hpw
          rcases List.mem_cons.mp hpw with rfl | hpw
          · exact (hms (w, p) (List.mem_cons_self _ _)).1
          · exact hdict pw hpw
        · have happ := compileGo_append hpat hpat₂
          rw [← List.map_append, List.take_append_drop] at happ
          exact happ
        · rw [wordsChars_cons]
          have h1 : PatMatch pat w.data :=
            matchRun_iff.mp (hms (w, p) (List.mem_cons_self _ _)).2
          have h2 : PatMatch pat₂ (wordsChars ext) := matchRun_iff.mp hmatch
          exact matchRun_iff.mpr (PatMatch.append h1 h2)
        · rw [hx]
          simp [BiwCall.soFarOf, BiwCall.remainingOf]
      by_cases herr : (biwRun d fuel (.main (soFar ++ [(p, w)]) (remaining.drop i) found)).err.isSome
      · simp only [herr, if_true] at he
        rcases ih _ (soundCall_main d _ _ _) e he with hin | hnew
        · exact Or.inl hin
        · exact Or.inr (hmainSound e hnew)
      · simp only [herr, Bool.false_eq_true, if_false] at he
        have hmerr : (biwRun d fuel (.main (soFar ++ [(p, w)]) (remaining.drop i) found)).err = none := by
          simpa using herr
        have hpres := biwRun_soFar_preserved d fuel _ hmerr
        simp only [BiwCall.soFarOf] at hpres
        rw [hpres, List.dropLast_concat] at he
        have hwcall : SoundCall d (.wLoop soFar remaining
            (biwRun d fuel (.main (soFar ++ [(p, w)]) (remaining.drop i) found)).found i ms) := by
          refine ⟨pat, hpat, ?_⟩
          intro wp hwp
          exact hms wp (List.mem_cons_of_mem _ hwp)
        rcases ih _ hwcall e he with hin | hnew
        · rcases ih _ (soundCall_main d _ _ _) e hin with hin2 | hnew2
          · exact Or.inl hin2
          · exact Or.inr (hmainSound e hnew2)
        · right
          obtain ⟨ext, hext, he'⟩ := hnew
          exact ⟨ext, hext, he'⟩

/-! ## Claim theorems -/

/-- Claim C9: for all integers `(count, total)` with `0 < count ≤ total`,
`from_fraction(count, total)` round-trips through its 64-bit bit-pattern
encoding exactly.  The float computed by `from_fraction` is some 64-bit
pattern; the theorem proves the round trip `from_bits (to_bits x) = x`
bit-for-bit for EVERY 64-bit float pattern `x`, hence in particular for the
result of `from_fraction` at any valid input (the transcendental `ln`
computation itself is not bit-modelled).  The packed pattern also always
fits the 64-bit value slot of the map. -/
theorem claim_C9_bits_roundtrip :
    ∀ (x : F64), F64.fromBits (F64.toBits x) = x ∧ F64.toBits x < 2 ^ 64 := by
  rintro ⟨s, ⟨e, he⟩, ⟨f, hf⟩⟩
  have hf' : f < 4503599627370496 := hf
  constructor
  · simp only [F64.toBits, F64.fromBits, F64.mk.injEq, Fin.mk.injEq]
    refine ⟨?_, ?_, ?_⟩
    · cases s
      · simp only [Bool.ite_eq_false_distrib, decide_eq_false_iff_not]
        norm_num
        omega
      · simp only [decide_eq_true_eq]
        norm_num
        omega
    · cases s <;> norm_num <;> omega
    · cases s <;> norm_num <;> omega
  · simp only [F64.toBits]
    cases s <;> norm_num <;> omega

/-! ### C6 — candidate deduplication in `permute_cmd` -/

/-- The dedup loop emits no candidate twice, and emits nothing from the
initial seen set. -/
theorem permuteDedupGo_nodup : ∀ (cs seen : List String),
    (permuteDedupGo seen cs).Nodup ∧ ∀ x ∈ permuteDedupGo seen cs, x ∉ seen := by
  intro cs
  induction cs with
  | nil => intro seen; simp [permuteDedupGo]
  | cons c cs ih =>
    intro seen
    by_cases hc : c ∈ seen
    · rw [permuteDedupGo, if_pos hc]
      exact ⟨(ih seen).1, (ih seen).2⟩
    · rw [permuteDedupGo, if_neg hc]
      constructor
      · refine List.nodup_cons.mpr ⟨?_, (ih (c :: seen)).1⟩
        intro hmem
        exact (ih (c :: seen)).2 c hmem (List.mem_cons_self _ _)
      · intro x hx
        rcases List.mem_cons.mp hx with rfl | hx
        · exact hc
        · intro hxseen
          exact (ih (c :: seen)).2 x hx (List.mem_cons_of_mem _ hxseen)

/-- Every enumerated candidate is either already seen or emitted. -/
theorem permuteDedupGo_covers : ∀ (cs seen : List String) (x : String), x ∈ cs →
    x ∈ seen ∨ x ∈ permuteDedupGo seen cs := by
  intro cs
  induction cs with
  | nil => intro seen x hx; cases hx
  | cons c cs ih =>
    intro seen x hx
    by_cases hc : c ∈ seen
    · rw [permuteDedupGo, if_pos hc]
      rcases List.mem_cons.mp hx with rfl | hx
      · exact Or.inl hc
      · exact ih seen x hx
    · rw [permuteDedupGo, if_neg hc]
      rcases List.mem_cons.mp hx with rfl | hx
      · exact Or.inr (List.mem_cons_self _ _)
      · rcases ih (c :: seen) x hx with hseen | hgo
        · rcases List.mem_cons.mp hseen with rfl | h
          · exact Or.inr (List.mem_cons_self _ _)
          · exact Or.inl h
        · exact Or.inr (List.mem_cons_of_mem _ hgo)

/-- Claim C6: `permute_cmd` deduplicates candidate strings — the processed
candidates contain no duplicates yet cover the concatenation of every
fragment permutation; in particular the duplicate fragments `["ab", "ab"]`
generate two identical concatenations but exactly one processed candidate
`"abab"`. -/
theorem claim_C6_candidates_dedup :
    (∀ frags : List String, (processedCandidates frags).Nodup ∧
      ∀ perm ∈ frags.permutations', String.join perm ∈ processedCandidates frags) ∧
    candidateStrings ["ab", "ab"] = ["abab", "abab"] ∧
    processedCandidates ["ab", "ab"] = ["abab"] := by
  refine ⟨fun frags => ⟨(permuteDedupGo_nodup _ []).1, ?_⟩, by decide, by decide⟩
  intro perm hperm
  have hx : String.join perm ∈ candidateStrings frags :=
    List.mem_map_of_mem _ hperm
  rcases permuteDedupGo_covers (candidateStrings frags) [] _ hx with h | h
  · cases h
  · exact h

/-- Witness for C6 at the concrete duplicate-fragment input. -/
theorem claim_C6_witness : "abab" ∈ processedCandidates ["ab", "ab"] :=
  (claim_C6_candidates_dedup.1 ["ab", "ab"]).2 ["ab", "ab"] (by decide)

/-! ### C5 — `find_matches` error behaviour -/

/-- Claim C5: for every loaded dictionary and pattern, `find_matches`
returns an empty list — not an error — when the (compilable) pattern
matches no key, and an error occurs only when the pattern fails to compile.
(The remaining real-world error source, a matched key that is not valid
text, is unrepresentable here because modelled keys are always valid
strings.) -/
theorem claim_C5_find_matches_errors :
    (∀ (d : Dict) (regex : String) (pat : Pattern),
        compileGo (asciiLower regex).data = some pat →
        (∀ kv ∈ d, matchRun pat kv.1.data = false) →
        Dictionary.find_matches d regex = .ok []) ∧
    (∀ (d : Dict) (regex : String) (e : RegexError),
        Dictionary.find_matches d regex = .error e →
        compileGo (asciiLower regex).data = none) := by
  constructor
  · intro d regex pat hpat hnone
    have hfil : d.filter (fun kv => matchRun pat kv.1.data) = [] := by
      rw [List.filter_eq_nil_iff]
      intro kv hkv
      simp [hnone kv hkv]
    simp only [Dictionary.find_matches, hpat, hfil, List.map_nil]
  · intro d regex e h
    unfold Dictionary.find_matches at h
    cases hc : compileGo (asciiLower regex).data with
    | none => rfl
    | some pat => rw [hc] at h; cases h

/-- Witness for C5: a valid pattern matching nothing yields `ok []`. -/
theorem claim_C5_witness :
    Dictionary.find_matches [("cat", 7)] "zz" = .ok [] :=
  claim_C5_find_matches_errors.1 [("cat", 7)] "zz"
    [(.lit 'z', false), (.lit 'z', false)] (by decide) (by decide)

/-! ### C8 — `find_matches` returns exactly the anchored matches -/

/-- Claim C8: a successful `find_matches d p` returns exactly the dictionary
keys fully matched (anchored at both ends) by the ASCII-lowercasing of `p`,
each paired with `from_bits` of its stored 64-bit value. -/
theorem claim_C8_find_matches_exact :
    ∀ (d : Dict) (regex : String) (r : List (String × F64)),
      Dictionary.find_matches d regex = .ok r →
      ∀ (w : String) (x : F64), ((w, x) ∈ r ↔
        ∃ bits pat, (w, bits) ∈ d ∧ compileGo (asciiLower regex).data = some pat ∧
          PatMatch pat w.data ∧ x = F64.fromBits bits) := by
  intro d regex r hr w x
  unfold Dictionary.find_matches at hr
  cases hc : compileGo (asciiLower regex).data with
  | none => rw [hc] at hr; cases hr
  | some pat =>
    rw [hc] at hr
    cases hr
    constructor
    · intro hmem
      rcases List.mem_map.mp hmem with ⟨⟨k, bits⟩, hkf, heq⟩
      obtain ⟨hkd, hmatch⟩ := List.mem_filter.mp hkf
      obtain ⟨rfl, rfl⟩ := Prod.mk.injEq .. |>.mp heq
      exact ⟨bits, pat, hkd, rfl, matchRun_iff.mp hmatch, rfl⟩
    · rintro ⟨bits, pat', hbits, hpat', hm, rfl⟩
      obtain rfl := Option.some.inj hpat'
      exact List.mem_map.mpr
        ⟨(w, bits), List.mem_filter.mpr ⟨hbits, matchRun_iff.mpr hm⟩, rfl⟩

/-- Witness for C8 at a concrete dictionary and wildcard pattern. -/
theorem claim_C8_witness :
    ("cat", F64.fromBits 17) ∈ [("cat", F64.fromBits 17)] :=
  (claim_C8_find_matches_exact [("cat", 17)] "C.T" [("cat", F64.fromBits 17)] rfl
      "cat" (F64.fromBits 17)).mpr
    ⟨17, [(.lit 'c', false), (.dot, false), (.lit 't', false)], by decide, by decide,
      matchRun_iff.mp (by decide), rfl⟩

/-! ### C4 — `search_cmd` output order -/

/-- Claim C4 counterexample: `search_cmd` prints the `find_matches` result
as-is, in ascending key order.  With stored values decoding to
`[1/2, 1/4, 3/8]`, the printed sequence is sorted neither by ascending
stored value (the program's own "descending probability" order: stored
values are negative logs, so smaller stored value = more probable) nor even
by descending stored value — so the output is not sorted by probability
under any reading. -/
theorem claim_C4_counterexample :
    search_cmd [("a", 1022 * 2 ^ 52), ("b", 1021 * 2 ^ 52), ("c", 1021 * 2 ^ 52 + 2 ^ 51)]
        "." =
      .ok [("a", F64.fromBits (1022 * 2 ^ 52)), ("b", F64.fromBits (1021 * 2 ^ 52)),
           ("c", F64.fromBits (1021 * 2 ^ 52 + 2 ^ 51))] ∧
    F64.toRatD (F64.fromBits (1022 * 2 ^ 52)) = 1 / 2 ∧
    F64.toRatD (F64.fromBits (1021 * 2 ^ 52)) = 1 / 4 ∧
    F64.toRatD (F64.fromBits (1021 * 2 ^ 52 + 2 ^ 51)) = 3 / 8 ∧
    ¬ List.Pairwise (· ≤ ·) [(1 : ℚ) / 2, 1 / 4, 3 / 8] ∧
    ¬ List.Pairwise (· ≥ ·) [(1 : ℚ) / 2, 1 / 4, 3 / 8] := by
  refine ⟨rfl, ?_, ?_, ?_, ?_, ?_⟩
  · rw [show F64.fromBits (1022 * 2 ^ 52) = ⟨false, ⟨1022, by norm_num⟩, ⟨0, by norm_num⟩⟩
      from by decide]
    norm_num [F64.toRatD]
  · rw [show F64.fromBits (1021 * 2 ^ 52) = ⟨false, ⟨1021, by norm_num⟩, ⟨0, by norm_num⟩⟩
      from by decide]
    norm_num [F64.toRatD]
  · rw [show F64.fromBits (1021 * 2 ^ 52 + 2 ^ 51) =
      ⟨false, ⟨1021, by norm_num⟩, ⟨2251799813685248, by norm_num⟩⟩ from by decide]
    norm_num [F64.toRatD]
  · intro h
    have := (List.pairwise_cons.mp h).1 (1 / 4) (by simp)
    norm_num at this
  · intro h
    have := (List.pairwise_cons.mp (List.pairwise_cons.mp h).2).1 (3 / 8) (by simp)
    norm_num at this

/-- Claim C4 amended: `search_cmd` prints exactly the `find_matches` result,
whose words are in ascending key order whenever the dictionary keys are
(as the sorted `fst` map guarantees); it does not sort by probability. -/
theorem claim_C4_search_key_order :
    ∀ (d : Dict) (regex : String) (r : List (String × F64)),
      List.Pairwise (fun a b => keyLt a b = true) (d.map Prod.fst) →
      search_cmd d regex = .ok r →
      search_cmd d regex = Dictionary.find_matches d regex ∧
      List.Pairwise (fun a b => keyLt a b = true) (r.map Prod.fst) := by
  intro d regex r hsort hr
  refine ⟨rfl, ?_⟩
  unfold search_cmd Dictionary.find_matches at hr
  cases hc : compileGo (asciiLower regex).data with
  | none => rw [hc] at hr; cases hr
  | some pat =>
    rw [hc] at hr
    cases hr
    have hsub : ((d.filter fun kv => matchRun pat kv.1.data).map Prod.fst).Sublist
        (d.map Prod.fst) :=
      List.Sublist.map _ (List.filter_sublist d)
    have hmapeq :
        ((d.filter fun kv => matchRun pat kv.1.data).map
            (fun kv => (kv.1, F64.fromBits kv.2))).map Prod.fst =
          (d.filter fun kv => matchRun pat kv.1.data).map Prod.fst := by
      rw [List.map_map]
      rfl
    rw [hmapeq]
    exact hsort.sublist hsub

/-- Witness for the amended C4 at a concrete sorted dictionary. -/
theorem claim_C4_witness :
    search_cmd [("a", 1022 * 2 ^ 52), ("b", 1021 * 2 ^ 52)] "." =
      Dictionary.find_matches [("a", 1022 * 2 ^ 52), ("b", 1021 * 2 ^ 52)] "." ∧
    List.Pairwise (fun a b => keyLt a b = true)
      ([("a", F64.fromBits (1022 * 2 ^ 52)), ("b", F64.fromBits (1021 * 2 ^ 52))].map
        Prod.fst) :=
  claim_C4_search_key_order [("a", 1022 * 2 ^ 52), ("b", 1021 * 2 ^ 52)] "."
    [("a", F64.fromBits (1022 * 2 ^ 52)), ("b", F64.fromBits (1021 * 2 ^ 52))]
    (by decide) rfl

/-! ### C1 and C2 — the stored value is the raw quotient, not −ln -/

/-- Claim C1 (code bug): building with counts `{the:100, cat:10, sat:5}`
(total 115) stores for "the" the plain `f64` quotient `100/115 ≈ 0.8696`
(idealized here as the exact rational), but the specification — and the
repository's own `Prob::from_fraction` — prescribe the bit pattern of
`−ln(100/115) ≈ 0.1398`.  The two differ by more than `0.36`, far beyond
floating-point tolerance: `−ln(100/115) < 1/2 < 100/115`. -/
theorem claim_C1_stored_value_not_neg_log :
    Dictionary.build ["the 100", "cat 10", "sat 5"] ["cat", "sat", "the"] =
      .ok [("cat", (10 : ℚ) / 115), ("sat", (5 : ℚ) / 115), ("the", (100 : ℚ) / 115)] ∧
    findMatchesQ [("cat", (10 : ℚ) / 115), ("sat", (5 : ℚ) / 115), ("the", (100 : ℚ) / 115)]
        "the" = .ok [("the", (100 : ℚ) / 115)] ∧
    -Real.log ((100 : ℝ) / 115) < 1 / 2 ∧ (1 : ℝ) / 2 < (100 : ℝ) / 115 ∧
    ((100 : ℝ) / 115) ≠ -Real.log ((100 : ℝ) / 115) := by
  have hlog : -Real.log ((100 : ℝ) / 115) < 1 / 2 := by
    rw [← Real.log_inv]
    have hinv : ((100 : ℝ) / 115)⁻¹ = 115 / 100 := by norm_num
    rw [hinv, Real.log_lt_iff_lt_exp (by norm_num)]
    have hexp := Real.add_one_le_exp ((1 : ℝ) / 2)
    nlinarith
  have hhalf : (1 : ℝ) / 2 < (100 : ℝ) / 115 := by norm_num
  exact ⟨rfl, rfl, hlog, hhalf, by intro h; rw [h] at hhalf; linarith⟩

/-- Claim C2 (code bug): in the same built dictionary, "the" (count 100) has
stored value `100/115` and "cat" (count 10) has stored value `10/115`; the
more frequent word's stored value is strictly LARGER, not strictly smaller
as the claim (and the negative-log design) requires. -/
theorem claim_C2_ordering_reversed :
    Dictionary.build ["the 100", "cat 10", "sat 5"] ["cat", "sat", "the"] =
      .ok [("cat", (10 : ℚ) / 115), ("sat", (5 : ℚ) / 115), ("the", (100 : ℚ) / 115)] ∧
    (100 : Nat) > 10 ∧
    ¬ ((100 : ℚ) / 115 < (10 : ℚ) / 115) ∧
    (10 : ℚ) / 115 < (100 : ℚ) / 115 := by
  refine ⟨rfl, by norm_num, by norm_num, by norm_num⟩

/-! ### C7 — duplicate words abort the build -/

/-- Lookup misses exactly the words outside the map's key set. -/
theorem lookupW_eq_none {α : Type} : ∀ (l : List (String × α)) (w : String),
    lookupW l w = none ↔ w ∉ l.map Prod.fst := by
  intro l
  induction l with
  | nil => intro w; simp [lookupW]
  | cons kv rest ih =>
    obtain ⟨k, v⟩ := kv
    intro w
    by_cases hk : k = w
    · subst hk
      rw [lookupW, if_pos rfl]
      simp
    · rw [lookupW, if_neg hk, ih w]
      simp only [List.map_cons, List.mem_cons, not_or]
      exact ⟨fun h => ⟨fun hw => hk hw.symm, h⟩, fun h => h.2⟩

/-- If the (lowercased) words of a well-formed, non-overflowing counts file
extend the already-loaded keys to a list with a repetition, the counts loop
aborts with a duplicate-word error. -/
theorem loadCountsGo_dup : ∀ (lines : List String) (counts : List (String × Nat))
    (total smallest : Nat),
    (∀ l ∈ lines, (parseCountLine l).isSome) →
    total + countSum lines < 2 ^ 64 →
    (counts.map Prod.fst).Nodup →
    ¬ (counts.map Prod.fst ++ countWords lines).Nodup →
    ∃ l, loadCountsGo counts total smallest lines = .error (.duplicateWord l) := by
  intro lines
  induction lines with
  | nil =>
    intro counts total smallest _ _ hnodup hdup
    exact absurd (by simpa [countWords] using hnodup) hdup
  | cons line rest ih =>
    intro counts total smallest hparse hsum hnodup hdup
    obtain ⟨wd, hwd⟩ := Option.isSome_iff_exists.mp (hparse line (List.mem_cons_self _ _))
    obtain ⟨w, digits⟩ := wd
    have hcw : countWords (line :: rest) = asciiLower w :: countWords rest := by
      simp [countWords, hwd]
    have hcs : countSum (line :: rest) = natOfDigits digits + countSum rest := by
      simp [countSum, hwd]
    rw [hcs] at hsum
    simp only [loadCountsGo, hwd]
    rw [if_neg (by omega)]
    by_cases hdupword : (lookupW counts (asciiLower w)).isSome
    · rw [if_pos hdupword]
      exact ⟨line, rfl⟩
    · rw [if_neg hdupword]
      have hnotmem : asciiLower w ∉ counts.map Prod.fst := by
        rw [← lookupW_eq_none]
        simpa [Option.not_isSome_iff_eq_none] using hdupword
      rw [if_neg (by omega)]
      have hkeys : (counts ++ [(asciiLower w, natOfDigits digits)]).map Prod.fst =
          counts.map Prod.fst ++ [asciiLower w] := by simp
      refine ih _ _ _ (fun l hl => hparse l (List.mem_cons_of_mem _ hl)) (by omega) ?_ ?_
      · rw [hkeys]
        refine List.nodup_append.mpr ⟨hnodup, List.nodup_singleton _, ?_⟩
        intro x hx hx'
        rw [List.mem_singleton] at hx'
        subst hx'
        exact hnotmem hx
      · rw [hkeys]
        rw [show (counts.map Prod.fst ++ [asciiLower w]) ++ countWords rest =
            counts.map Prod.fst ++ asciiLower w :: countWords rest by simp]
        rw [hcw] at hdup
        exact hdup

/-- Claim C7: for every counts input whose lines are all well-formed and
whose total does not overflow, if the same word (after ASCII lowercasing)
appears on two lines then `Dictionary::build` aborts with the
duplicate-word data-integrity error (quoting an offending line) instead of
producing a dictionary. -/
theorem claim_C7_duplicate_word_aborts :
    ∀ (countLines wordLines : List String),
      (∀ l ∈ countLines, (parseCountLine l).isSome) →
      countSum countLines < 2 ^ 64 →
      ¬ (countWords countLines).Nodup →
      ∃ l, Dictionary.build countLines wordLines = .error (.duplicateWord l) := by
  intro countLines wordLines hparse hsum hdup
  obtain ⟨l, hl⟩ := loadCountsGo_dup countLines [] 0 (2 ^ 64 - 1) hparse
    (by simpa using hsum) (by simp) (by simpa using hdup)
  refine ⟨l, ?_⟩
  unfold Dictionary.build loadCounts
  rw [hl]
  rfl

/-- Witness for C7: the word "cat" on two counts lines aborts the build. -/
theorem claim_C7_witness :
    ∃ l, Dictionary.build ["cat 5", "cat 6"] [] = .error (.duplicateWord l) :=
  claim_C7_duplicate_word_aborts ["cat 5", "cat 6"] [] (by decide) (by decide) (by decide)

/-! ### C10 — the `so_far` stack across a call -/

/-- Claim C10 counterexample: with dictionary `{a ↦ ½}` and remaining
pattern `"a*"`, the prefix `"a"` matches and is pushed, the recursive call
on suffix `"*"` fails to compile, and `?` propagates the error before the
`pop` runs — the call returns with `(½, "a")` still on the `so_far` stack,
which was empty at entry.  (The error is the propagated pattern error, not
fuel exhaustion, so this is the faithful behaviour of the source.) -/
theorem claim_C10_counterexample :
    break_into_words [("a", (1 : ℚ) / 2)] 30 [] "a*" [] =
      ⟨[((1 : ℚ) / 2, "a")], [(0 + (1 : ℚ) / 2, "a")], some .patternFailed⟩ ∧
    ([((1 : ℚ) / 2, "a")] : List (ℚ × String)) ≠ [] :=
  ⟨rfl, by simp⟩

/-- Claim C10 amended: whenever `break_into_words` returns without error,
the `so_far` stack equals its value at entry — every pushed
`(probability, word)` pair has been popped; on an error return, pairs
pushed before the error may remain. -/
theorem claim_C10_stack_restored :
    ∀ (d : DictQ) (fuel : Nat) (soFar : List (ℚ × String)) (remaining : String)
      (found : List (ℚ × String)),
      (break_into_words d fuel soFar remaining found).err = none →
      (break_into_words d fuel soFar remaining found).soFar = soFar :=
  fun d fuel _ _ _ h => biwRun_soFar_preserved d fuel _ h

/-- Witness for the amended C10 at a concrete complete run. -/
theorem claim_C10_witness :
    (break_into_words [("cat", (1 : ℚ) / 2), ("sat", (1 : ℚ) / 3)] 60 [] "catsat" []).soFar
      = [] :=
  claim_C10_stack_restored [("cat", (1 : ℚ) / 2), ("sat", (1 : ℚ) / 3)] 60 [] "catsat" [] rfl

/-! ### C3 — what `break_into_words` records -/

/-- Claim C3 counterexample: the recorded words need not concatenate to the
candidate string.  With dictionary `{cat ↦ ½}` and candidate `"c.t"` the
(error-free) search records exactly the segmentation `"cat"`, and
`"cat" ≠ "c.t"` — the wildcard makes the matched word differ from the
candidate slice. -/
theorem claim_C3_counterexample :
    (break_into_words [("cat", (1 : ℚ) / 2)] 30 [] "c.t" []).err = none ∧
    (break_into_words [("cat", (1 : ℚ) / 2)] 30 [] "c.t" []).found.map Prod.snd = ["cat"] ∧
    "cat" ≠ "c.t" :=
  ⟨rfl, rfl, by decide⟩

/-- The probability of a recorded entry is the sum of the chosen stored
values (the fold with `Prob::always` and `Prob::mul`). -/
theorem combineSoFar_eq_sum : ∀ (l : List (ℚ × String)),
    combineSoFar l = (l.map Prod.fst).sum := by
  have hgen : ∀ (l : List (ℚ × String)) (a : ℚ),
      l.foldl (fun acc pw => acc + pw.1) a = a + (l.map Prod.fst).sum := by
    intro l
    induction l with
    | nil => intro a; simp
    | cons pw rest ih =>
      intro a
      simp only [List.foldl_cons, List.map_cons, List.sum_cons, ih]
      ring
  intro l
  simpa using hgen l 0

/-- Claim C3 amended: `break_into_words` records a segmentation exactly when
the remaining suffix is empty (an empty suffix always records exactly
`mkEntry so_far`), and every recorded entry is `mkEntry` of a stack of
dictionary entries whose probability is the sum of the chosen stored values
and whose words, concatenated, are ACCEPTED by the candidate pattern
(equal to the candidate when it has no wildcard or star, but in general
only matching it). -/
theorem claim_C3_segmentation_sound :
    (∀ (d : DictQ) (fuel : Nat) (soFar found : List (ℚ × String)),
        break_into_words d (fuel + 1) soFar "" found =
          ⟨soFar, found ++ [mkEntry soFar], none⟩) ∧
    (∀ (d : DictQ) (fuel : Nat) (cand : String) (e : ℚ × String),
        e ∈ (break_into_words d fuel [] cand []).found →
        ∃ chosen : List (ℚ × String),
          (∀ pw ∈ chosen, (pw.2, pw.1) ∈ d) ∧
          e.1 = (chosen.map Prod.fst).sum ∧
          e = mkEntry chosen ∧
          ∃ pat, compileGo ((asciiLower cand).data) = some pat ∧
            matchRun pat (wordsChars chosen) = true) := by
  constructor
  · intro d fuel soFar found
    rfl
  · intro d fuel cand e he
    rcases biwRun_found_sound d fuel (.main [] cand.data []) (soundCall_main d _ _ _) e he
      with hin | hnew
    · cases hin
    · obtain ⟨ext, ⟨hdict, pat, hpat, hmatch⟩, he'⟩ := hnew
      simp only [BiwCall.soFarOf, BiwCall.remainingOf, List.nil_append] at he' hpat
      refine ⟨ext, hdict, ?_, he', pat, hpat, hmatch⟩
      rw [he']
      exact combineSoFar_eq_sum ext

/-- Witness for the amended C3: the `"catsat"` run with entries `cat`, `sat`
records the segmentation `"cat sat"` with probability `½ + ⅓`. -/
theorem claim_C3_witness :
    ∃ chosen : List (ℚ × String),
      (∀ pw ∈ chosen, (pw.2, pw.1) ∈ ([("cat", (1 : ℚ) / 2), ("sat", (1 : ℚ) / 3)] : DictQ)) ∧
      (mkEntry [((1 : ℚ) / 2, "cat"), ((1 : ℚ) / 3, "sat")]).1 = (chosen.map Prod.fst).sum ∧
      mkEntry [((1 : ℚ) / 2, "cat"), ((1 : ℚ) / 3, "sat")] = mkEntry chosen ∧
      ∃ pat, compileGo ((asciiLower "catsat").data) = some pat ∧
        matchRun pat (wordsChars chosen) = true :=
  claim_C3_segmentation_sound.2 [("cat", (1 : ℚ) / 2), ("sat", (1 : ℚ) / 3)] 60 "catsat"
    (mkEntry [((1 : ℚ) / 2, "cat"), ((1 : ℚ) / 3, "sat")]) (List.Mem.head _)
